import Mathlib

set_option maxHeartbeats 1000000
set_option maxRecDepth 8000

/-!
Verification of the correction pipeline of the Ollama spell-checker backend
(`backend/main.py`).

Modelling conventions (shallow embedding):
* Python strings are `List Char` (`PyStr`); `str.lower`, `re.IGNORECASE` and
  the `\b`/`\w` regex classes are modelled at the ASCII level, which is the
  behaviour exercised by the program's data.
* JSON / dynamic Python values are the inductive type `PyVal`; Python
  exceptions are modelled with `Except PyErr`.
* `json.loads` is modelled by `json_loads`, a recursive-descent parser for
  the JSON fragment the pipeline exchanges (null/true/false, integers,
  strings with the common escapes, arrays, objects); inputs outside this
  fragment are treated as parse failures.
* The external model service is modelled as the list of raw reply strings,
  one per chunk (the pipeline performs one generate call per chunk, in
  order); a missing reply behaves as the empty reply.
-/

abbrev PyStr := List Char

/-- Dynamic (JSON-shaped) Python values: the results of `json.loads` and the
values stored in the per-request `corrections_global` dictionary. -/
inductive PyVal where
  | none
  | bool (b : Bool)
  | int (n : Int)
  | str (s : PyStr)
  | list (xs : List PyVal)
  | dict (kvs : List (PyStr × PyVal))

/-- Python exceptions that the pipeline code can raise
(`AttributeError` from attribute access on a value that lacks it,
`TypeError` from `re.escape`/`set`/iteration on unsuitable values). -/
inductive PyErr where
  | attributeError
  | typeError
deriving DecidableEq

mutual
def pyValDecEq : (a b : PyVal) → Decidable (a = b)
  | .none, .none => isTrue rfl
  | .none, .bool _ => isFalse (fun h => nomatch h)
  | .none, .int _ => isFalse (fun h => nomatch h)
  | .none, .str _ => isFalse (fun h => nomatch h)
  | .none, .list _ => isFalse (fun h => nomatch h)
  | .none, .dict _ => isFalse (fun h => nomatch h)
  | .bool _, .none => isFalse (fun h => nomatch h)
  | .bool a, .bool b =>
    match decEq a b with
    | isTrue h => isTrue (by rw [h])
    | isFalse h => isFalse (fun he => h (PyVal.bool.inj he))
  | .bool _, .int _ => isFalse (fun h => nomatch h)
  | .bool _, .str _ => isFalse (fun h => nomatch h)
  | .bool _, .list _ => isFalse (fun h => nomatch h)
  | .bool _, .dict _ => isFalse (fun h => nomatch h)
  | .int _, .none => isFalse (fun h => nomatch h)
  | .int _, .bool _ => isFalse (fun h => nomatch h)
  | .int a, .int b =>
    match decEq a b with
    | isTrue h => isTrue (by rw [h])
    | isFalse h => isFalse (fun he => h (PyVal.int.inj he))
  | .int _, .str _ => isFalse (fun h => nomatch h)
  | .int _, .list _ => isFalse (fun h => nomatch h)
  | .int _, .dict _ => isFalse (fun h => nomatch h)
  | .str _, .none => isFalse (fun h => nomatch h)
  | .str _, .bool _ => isFalse (fun h => nomatch h)
  | .str _, .int _ => isFalse (fun h => nomatch h)
  | .str a, .str b =>
    match decEq a b with
    | isTrue h => isTrue (by rw [h])
    | isFalse h => isFalse (fun he => h (PyVal.str.inj he))
  | .str _, .list _ => isFalse (fun h => nomatch h)
  | .str _, .dict _ => isFalse (fun h => nomatch h)
  | .list _, .none => isFalse (fun h => nomatch h)
  | .list _, .bool _ => isFalse (fun h => nomatch h)
  | .list _, .int _ => isFalse (fun h => nomatch h)
  | .list _, .str _ => isFalse (fun h => nomatch h)
  | .list xs, .list ys =>
    match pyValListDecEq xs ys with
    | isTrue h => isTrue (by rw [h])
    | isFalse h => isFalse (fun he => h (PyVal.list.inj he))
  | .list _, .dict _ => isFalse (fun h => nomatch h)
  | .dict _, .none => isFalse (fun h => nomatch h)
  | .dict _, .bool _ => isFalse (fun h => nomatch h)
  | .dict _, .int _ => isFalse (fun h => nomatch h)
  | .dict _, .str _ => isFalse (fun h => nomatch h)
  | .dict _, .list _ => isFalse (fun h => nomatch h)
  | .dict xs, .dict ys =>
    match pyValKVsDecEq xs ys with
    | isTrue h => isTrue (by rw [h])
    | isFalse h => isFalse (fun he => h (PyVal.dict.inj he))

def pyValListDecEq : (xs ys : List PyVal) → Decidable (xs = ys)
  | [], [] => isTrue rfl
  | [], _ :: _ => isFalse (fun h => nomatch h)
  | _ :: _, [] => isFalse (fun h => nomatch h)
  | x :: xs, y :: ys =>
    match pyValDecEq x y, pyValListDecEq xs ys with
    | isTrue h1, isTrue h2 => isTrue (by rw [h1, h2])
    | isFalse h1, _ => isFalse (fun he => h1 (List.cons.inj he).1)
    | _, isFalse h2 => isFalse (fun he => h2 (List.cons.inj he).2)

def pyValKVsDecEq : (xs ys : List (PyStr × PyVal)) → Decidable (xs = ys)
  | [], [] => isTrue rfl
  | [], _ :: _ => isFalse (fun h => nomatch h)
  | _ :: _, [] => isFalse (fun h => nomatch h)
  | (k1, v1) :: xs, (k2, v2) :: ys =>
    match decEq k1 k2, pyValDecEq v1 v2, pyValKVsDecEq xs ys with
    | isTrue h1, isTrue h2, isTrue h3 => isTrue (by rw [h1, h2, h3])
    | isFalse h1, _, _ =>
      isFalse (fun he => h1 (congrArg (fun l => (l.headD ([], PyVal.none)).1) he))
    | _, isFalse h2, _ =>
      isFalse (fun he => h2 (congrArg (fun l => (l.headD ([], PyVal.none)).2) he))
    | _, _, isFalse h3 => isFalse (fun he => h3 (List.cons.inj he).2)
end

instance : DecidableEq PyVal := pyValDecEq

/-! ## Characters, lowering, and the `\b`-regex model (lines 179-183) -/

/-- ASCII model of Python `str.lower()` (and of `re.IGNORECASE` folding):
uppercase A-Z maps to a-z, everything else is unchanged. -/
def pyLower (c : Char) : Char :=
  if 65 ≤ c.toNat ∧ c.toNat ≤ 90 then Char.ofNat (c.toNat + 32) else c

def pyLowerStr (s : PyStr) : PyStr := s.map pyLower

/-- ASCII model of the regex word-character class `\w` ([a-zA-Z0-9_]). -/
def isWordChar (c : Char) : Bool :=
  (97 ≤ c.toNat && c.toNat ≤ 122) || (65 ≤ c.toNat && c.toNat ≤ 90) ||
    (48 ≤ c.toNat && c.toNat ≤ 57) || (c.toNat == 95)

/-- Python slice `s[a:b]` for non-negative indices. -/
def pySlice (s : PyStr) (a b : Nat) : PyStr := (s.take b).drop a

/-- Whether the character at index `i` of `s` exists and is a word character
(out-of-range counts as a non-word position, as in the `\b` semantics). -/
def isWordAt (s : PyStr) (i : Nat) : Bool :=
  match s.get? i with
  | some c => isWordChar c
  | Option.none => false

/-- Whether the character just before position `i` is a word character
(the position before the start of the string is a non-word position). -/
def prevIsWord (s : PyStr) (i : Nat) : Bool :=
  if i = 0 then false else isWordAt s (i - 1)

/-- The regex word-boundary `\b` holds at position `i` of `s`. -/
def boundaryAt (s : PyStr) (i : Nat) : Bool :=
  prevIsWord s i != isWordAt s i

/-- The pattern `\b re.escape(w) \b` with `re.IGNORECASE` matches `s` at
position `i`: the escaped word matches literally (case-insensitively) and a
word boundary holds on both sides. -/
def matchesAt (s w : PyStr) (i : Nat) : Bool :=
  decide (i + w.length ≤ s.length) &&
    (pyLowerStr (pySlice s i (i + w.length)) == pyLowerStr w) &&
    boundaryAt s i && boundaryAt s (i + w.length)

/-- The scan performed by `re.finditer`: leftmost matches, each search
resuming at the end of the previous match (advancing by one position after a
zero-width match). `fuel` bounds the scan; `finditer` supplies enough. -/
def finditerFrom (s w : PyStr) : Nat → Nat → List (Nat × Nat)
  | _, 0 => []
  | i, fuel+1 =>
    if s.length < i then []
    else if matchesAt s w i then
      (i, i + w.length) :: finditerFrom s w (i + max w.length 1) fuel
    else finditerFrom s w (i + 1) fuel

/-- All matches of `\b re.escape(w) \b` (IGNORECASE) in `s`, in scan order,
as half-open `(start, end)` pairs — `re.finditer` at line 182. -/
def finditer (s w : PyStr) : List (Nat × Nat) :=
  finditerFrom s w 0 (s.length + 1)

/-- The occurrence locator (lines 179-183): every local match of the reported
word in the chunk, translated to global coordinates by adding the chunk's
running offset. -/
def locate (ch w : PyStr) (offset : Nat) : List (Nat × Nat) :=
  (finditer ch w).map (fun p => (offset + p.1, offset + p.2))

/-! ## The chunker `chunk_text` (lines 88-104) -/

/-- Python `s.split(" ")`: split at every single space, keeping empty
fragments (so `"".split(" ") == [""]` and `"a  b".split(" ") == ["a","","b"]`). -/
def splitSp : PyStr → List PyStr
  | [] => [[]]
  | c :: r =>
    if c = ' ' then [] :: splitSp r
    else
      match splitSp r with
      | [] => [[c]]
      | t :: ts => (c :: t) :: ts

/-- The non-empty space-separated words of a string (used to state the
"never splits inside a word" property). -/
def wordsOf (s : PyStr) : List PyStr :=
  (splitSp s).filter (fun w => !w.isEmpty)

/-- The packing loop of `chunk_text` (lines 95-99): for each word, if adding
it (plus a separating space) would exceed the budget, flush the current part
and restart from a single space; then append the word and a trailing space. -/
def chunkLoop (m : Nat) : List PyStr → PyStr → List PyStr → List PyStr × PyStr
  | parts, current, [] => (parts, current)
  | parts, current, word :: rest =>
    if m < current.length + word.length + 1 then
      chunkLoop m (parts ++ [current]) ((' ' :: word) ++ [' ']) rest
    else
      chunkLoop m parts ((current ++ word) ++ [' ']) rest

/-- `chunk_text` (lines 88-104): one chunk when the text fits, otherwise the
packing loop over `s.split(" ")`, appending the final part when non-empty. -/
def chunk_text (s : PyStr) (maxChars : Nat) : List PyStr :=
  if s.length ≤ maxChars then [s]
  else
    match chunkLoop maxChars [] [] (splitSp s) with
    | (parts, current) => if current.isEmpty then parts else parts ++ [current]

/-! ## The JSON model (`json.loads`) and the response extractor (lines 74-86) -/

def skipWs : PyStr → PyStr
  | [] => []
  | c :: r => if c = ' ' ∨ c = '\t' ∨ c = '\n' ∨ c = '\r' then skipWs r else c :: r

/-- Body of a JSON string literal (after the opening quote), handling the
common escapes; `\u` escapes are outside the modelled fragment. -/
def parseStringBody : Nat → PyStr → Option (PyStr × PyStr)
  | 0, _ => Option.none
  | _, [] => Option.none
  | fuel+1, c :: r =>
    if c = '"' then some ([], r)
    else if c = '\\' then
      match r with
      | [] => Option.none
      | e :: r2 =>
        let ec : Option Char :=
          if e = '"' then some '"'
          else if e = '\\' then some '\\'
          else if e = '/' then some '/'
          else if e = 'n' then some '\n'
          else if e = 't' then some '\t'
          else if e = 'r' then some '\r'
          else if e = 'b' then some (Char.ofNat 8)
          else if e = 'f' then some (Char.ofNat 12)
          else Option.none
        match ec with
        | some d => (parseStringBody fuel r2).map (fun p => (d :: p.1, p.2))
        | Option.none => Option.none
    else (parseStringBody fuel r).map (fun p => (c :: p.1, p.2))

def isDigit (c : Char) : Bool := 48 ≤ c.toNat && c.toNat ≤ 57

def digitsToNat (s : PyStr) : Nat :=
  s.foldl (fun a c => a * 10 + (c.toNat - 48)) 0

/-- JSON integer literal (floats and exponents are outside the modelled
fragment and parse as failures). -/
def parseNumber (s : PyStr) : Option (PyVal × PyStr) :=
  let neg : Bool := match s with | '-' :: _ => true | _ => false
  let s1 : PyStr := match s with | '-' :: r => r | _ => s
  let ds := s1.takeWhile isDigit
  let rest := s1.dropWhile isDigit
  if ds.isEmpty then Option.none
  else
    match rest with
    | '.' :: _ => Option.none
    | 'e' :: _ => Option.none
    | 'E' :: _ => Option.none
    | _ =>
      some (PyVal.int (if neg then -(digitsToNat ds : Int) else (digitsToNat ds : Int)), rest)

mutual
def parseVal : Nat → PyStr → Option (PyVal × PyStr)
  | 0, _ => Option.none
  | fuel+1, s =>
    match skipWs s with
    | 'n' :: 'u' :: 'l' :: 'l' :: r => some (PyVal.none, r)
    | 't' :: 'r' :: 'u' :: 'e' :: r => some (PyVal.bool true, r)
    | 'f' :: 'a' :: 'l' :: 's' :: 'e' :: r => some (PyVal.bool false, r)
    | '"' :: r => (parseStringBody (r.length + 1) r).map (fun p => (PyVal.str p.1, p.2))
    | '[' :: r =>
      (match skipWs r with
       | ']' :: r2 => some (PyVal.list [], r2)
       | _ => parseElems fuel r [])
    | '\x7b' :: r =>
      (match skipWs r with
       | '\x7d' :: r2 => some (PyVal.dict [], r2)
       | _ => parseMembers fuel r [])
    | s1 => parseNumber s1

def parseElems : Nat → PyStr → List PyVal → Option (PyVal × PyStr)
  | 0, _, _ => Option.none
  | fuel+1, s, acc =>
    match parseVal fuel s with
    | Option.none => Option.none
    | some (v, r) =>
      match skipWs r with
      | ',' :: r2 => parseElems fuel r2 (acc ++ [v])
      | ']' :: r2 => some (PyVal.list (acc ++ [v]), r2)
      | _ => Option.none

def parseMembers : Nat → PyStr → List (PyStr × PyVal) → Option (PyVal × PyStr)
  | 0, _, _ => Option.none
  | fuel+1, s, acc =>
    match skipWs s with
    | '"' :: r =>
      (match parseStringBody (r.length + 1) r with
       | Option.none => Option.none
       | some (k, r1) =>
         match skipWs r1 with
         | ':' :: r2 =>
           (match parseVal fuel r2 with
            | Option.none => Option.none
            | some (v, r3) =>
              match skipWs r3 with
              | ',' :: r4 => parseMembers fuel r4 (acc ++ [(k, v)])
              | '\x7d' :: r4 => some (PyVal.dict (acc ++ [(k, v)]), r4)
              | _ => Option.none)
         | _ => Option.none)
    | _ => Option.none
end

/-- Model of Python `json.loads`: parse one value and require that only
whitespace remains (extra data is an error, hence a parse failure). -/
def json_loads (s : PyStr) : Option PyVal :=
  match parseVal (s.length + 2) s with
  | some (v, r) => if (skipWs r).isEmpty then some v else Option.none
  | Option.none => Option.none

/-- Python `s.find(c)`: index of the first occurrence, `none` for Python's -1. -/
def findIdxFrom : PyStr → Char → Nat → Option Nat
  | [], _, _ => Option.none
  | a :: r, c, i => if a = c then some i else findIdxFrom r c (i + 1)

def pyFind (s : PyStr) (c : Char) : Option Nat := findIdxFrom s c 0

/-- Python `s.rfind(c)`: index of the last occurrence, `none` for Python's -1. -/
def pyRfind (s : PyStr) (c : Char) : Option Nat :=
  match findIdxFrom s.reverse c 0 with
  | some i => some (s.length - 1 - i)
  | Option.none => Option.none

/-- `_extract_json_list` (lines 74-86): take the substring from the first `[`
to the last `]` and `json.loads` it; on any failure return the empty list.
(The snippet starts with `[`, so a successful parse is always an array.) -/
def _extract_json_list (text : PyStr) : List PyVal :=
  match pyFind text '[' with
  | Option.none => []
  | some s =>
    match pyRfind text ']' with
    | Option.none => []
    | some e =>
      if e ≤ s then []
      else
        match json_loads (pySlice text s (e + 1)) with
        | some (PyVal.list xs) => xs
        | _ => []

/-! ## Dynamic value operations used by the aggregator (lines 174-199) -/

/-- Assoc-list lookup backing the model of Python dictionaries. -/
def pyLookup : List (PyStr × PyVal) → PyStr → Option PyVal
  | [], _ => Option.none
  | (k1, v) :: r, k => if k1 = k then some v else pyLookup r k

/-- `item.get(key)` when it succeeds: `some` of the stored value (or of
Python `None` when the key is absent) for a dict, `none` when `item` is not
a dict (in which case the attribute access raises). -/
def pyGetOpt (item : PyVal) (k : PyStr) : Option PyVal :=
  match item with
  | PyVal.dict kvs => some ((pyLookup kvs k).getD PyVal.none)
  | _ => Option.none

/-- `item.get(key)` (lines 175-176): `AttributeError` when `item` has no
`get` attribute, i.e. is not a dict. -/
def pyGet (item : PyVal) (k : PyStr) : Except PyErr PyVal :=
  match pyGetOpt item k with
  | some v => Except.ok v
  | Option.none => Except.error PyErr.attributeError

/-- Hashability for `set` membership and `set.add`: every modelled scalar is
hashable, lists and dicts are not. -/
def pyHashable : PyVal → Bool
  | PyVal.list _ => false
  | PyVal.dict _ => false
  | _ => true

/-- Python iteration (`for s in sugg`, `set(x)`): lists yield their elements,
strings their characters (as one-character strings), dicts their keys;
`None`, booleans and integers are not iterable (`TypeError`). -/
def pyIter : PyVal → Except PyErr (List PyVal)
  | PyVal.list xs => Except.ok xs
  | PyVal.str s => Except.ok (s.map (fun c => PyVal.str [c]))
  | PyVal.dict kvs => Except.ok (kvs.map (fun kv => PyVal.str kv.1))
  | _ => Except.error PyErr.typeError

/-- One step of `set(x)` construction: adding an unhashable element raises. -/
def pySetAdd (acc : List PyVal) (x : PyVal) : Except PyErr (List PyVal) :=
  if pyHashable x then Except.ok (if x ∈ acc then acc else acc ++ [x])
  else Except.error PyErr.typeError

def pySetFold (acc : List PyVal) : List PyVal → Except PyErr (List PyVal)
  | [] => Except.ok acc
  | x :: r =>
    match pySetAdd acc x with
    | Except.error e => Except.error e
    | Except.ok acc1 => pySetFold acc1 r

/-- `set(v)` (line 195): the deduplicated elements of `v` in first-seen
order (only membership is observed downstream, so the order is immaterial). -/
def pySet (v : PyVal) : Except PyErr (List PyVal) :=
  match pyIter v with
  | Except.error e => Except.error e
  | Except.ok xs => pySetFold [] xs

/-- The suggestion-union loop (lines 196-199): for each incoming value, skip
it when already in `seen` (membership of an unhashable value raises
`TypeError`), otherwise `.append` it to the stored suggestions value (which
raises `AttributeError` unless that value is a list) and add it to `seen`. -/
def mergeSuggLoop : PyVal → List PyVal → List PyVal → Except PyErr PyVal
  | cur, _, [] => Except.ok cur
  | cur, seen, s :: rest =>
    if pyHashable s then
      if s ∈ seen then mergeSuggLoop cur seen rest
      else
        match cur with
        | PyVal.list xs => mergeSuggLoop (PyVal.list (xs ++ [s])) (seen ++ [s]) rest
        | _ => Except.error PyErr.attributeError
    else Except.error PyErr.typeError

/-- One value of the `corrections_global` dict: `{"word": ..,
"suggestions": .., "positions": ..}` (line 190). The suggestions field is
dynamic: the code stores whatever the model sent on first sighting. -/
structure CorrectionEntry where
  word : PyStr
  suggestions : PyVal
  positions : List (Nat × Nat)
deriving DecidableEq

def exceptDecEq {ε α : Type} [DecidableEq ε] [DecidableEq α] :
    (x y : Except ε α) → Decidable (x = y)
  | .ok a, .ok b =>
    match decEq a b with
    | isTrue h => isTrue (by rw [h])
    | isFalse h => isFalse (fun he => h (Except.ok.inj he))
  | .ok _, .error _ => isFalse (fun h => nomatch h)
  | .error _, .ok _ => isFalse (fun h => nomatch h)
  | .error a, .error b =>
    match decEq a b with
    | isTrue h => isTrue (by rw [h])
    | isFalse h => isFalse (fun he => h (Except.error.inj he))

instance {ε α : Type} [DecidableEq ε] [DecidableEq α] : DecidableEq (Except ε α) :=
  exceptDecEq

/-- `corrections_global`: insertion-ordered dict keyed by the lowercased
word, modelled as an assoc list (appending on first sighting, updating in
place on later sightings — Python dicts preserve insertion order). -/
abbrev AggState := List (PyStr × CorrectionEntry)

def lookupEntry : AggState → PyStr → Option CorrectionEntry
  | [], _ => Option.none
  | (k1, e) :: r, k => if k1 = k then some e else lookupEntry r k

def updateEntry (st : AggState) (k : PyStr) (e : CorrectionEntry) : AggState :=
  st.map (fun kv => if kv.1 = k then (k, e) else kv)

/-- Processing of one annotation item (lines 174-199): read
`misspelled_word` and `suggestion` (AttributeError on a non-dict item),
require the word to be a string (`re.escape` raises TypeError otherwise),
locate its whole-word occurrences in the chunk, then create or merge the
entry keyed by the lowercased word. -/
def processItem (ch : PyStr) (offset : Nat) (st : AggState) (item : PyVal) :
    Except PyErr AggState :=
  match pyGet item ("misspelled_word".toList) with
  | Except.error e => Except.error e
  | Except.ok wv =>
    match pyGet item ("suggestion".toList) with
    | Except.error e => Except.error e
    | Except.ok sugg =>
      match wv with
      | PyVal.str w =>
        let positions := locate ch w offset
        let key := pyLowerStr w
        match lookupEntry st key with
        | Option.none => Except.ok (st ++ [(key, ⟨w, sugg, positions⟩)])
        | some ent =>
          match pySet ent.suggestions with
          | Except.error er => Except.error er
          | Except.ok seen =>
            match pyIter sugg with
            | Except.error er => Except.error er
            | Except.ok ts =>
              match mergeSuggLoop ent.suggestions seen ts with
              | Except.error er => Except.error er
              | Except.ok newSugg =>
                Except.ok
                  (updateEntry st key ⟨ent.word, newSugg, ent.positions ++ positions⟩)
      | _ => Except.error PyErr.typeError

/-- `for item in arr` (line 174): items processed in order, the first raised
exception propagating. -/
def processItems (ch : PyStr) (offset : Nat) (st : AggState) :
    List PyVal → Except PyErr AggState
  | [] => Except.ok st
  | item :: rest =>
    match processItem ch offset st item with
    | Except.error e => Except.error e
    | Except.ok st1 => processItems ch offset st1 rest

/-- `for ch in chunks` (lines 144-200): each chunk's model reply is read in
order (a missing reply behaves as the empty string, which extracts to no
annotations), its annotations are folded into the state, and the running
offset advances by the length of the chunk text. -/
def runChunks : AggState → Nat → List PyStr → List PyStr → Except PyErr AggState
  | st, _, [], _ => Except.ok st
  | st, offset, ch :: rest, resps =>
    match processItems ch offset st (_extract_json_list (resps.headD [])) with
    | Except.error e => Except.error e
    | Except.ok st1 => runChunks st1 (offset + ch.length) rest resps.tail

/-- The `/spellcheck` correction pipeline (lines 139-202), with the external
model's raw replies (one per chunk) supplied as `responses`: chunk the text,
fold every chunk's annotations into the corrections dict, and return the
values in insertion order. -/
def spellcheck_pipeline (text : PyStr) (maxChars : Nat) (responses : List PyStr) :
    Except PyErr (List CorrectionEntry) :=
  match runChunks [] 0 (chunk_text text maxChars) responses with
  | Except.error e => Except.error e
  | Except.ok st => Except.ok (st.map (fun kv => kv.2))

def isListVal : PyVal → Bool
  | PyVal.list _ => true
  | _ => false

/-- The suggestion union as the spec words it: fold the incoming values onto
the existing list, skipping values already present, preserving first-seen
order. -/
def suggUnion (ss ts : List PyVal) : List PyVal :=
  ts.foldl (fun acc t => if t ∈ acc then acc else acc ++ [t]) ss

/-! ## The result cache (lines 36-52) and the two endpoints' keys -/

/-- A sha256 digest, represented by its preimage: sha256 is a fixed
deterministic function, and the claims about the cache depend only on when
two digests of it coincide. -/
structure Sha256Digest where
  preimage : PyStr
deriving DecidableEq

/-- `_hash_key` (lines 36-37): the digest of `model + "||" + text`. -/
def _hash_key (model text : PyStr) : Sha256Digest :=
  ⟨model ++ "||".toList ++ text⟩

def CACHE_TTL : Nat := 60

/-- The process-wide `CACHE` dict: key to (creation time, value). -/
abbrev Cache := List (Sha256Digest × (Nat × PyVal))

def cacheLookup : Cache → Sha256Digest → Option (Nat × PyVal)
  | [], _ => Option.none
  | kv :: r, k => if kv.1 = k then some kv.2 else cacheLookup r k

/-- `_cache_set` (lines 50-52): store (now, value) under the key, a later
store under the same key superseding the earlier one. -/
def _cache_set (c : Cache) (model text : PyStr) (now : Nat) (v : PyVal) : Cache :=
  (_hash_key model text, (now, v)) :: c.filter (fun kv => !(kv.1 = _hash_key model text : Bool))

/-- `_cache_get` (lines 39-48): a stored row is returned while its age is
within `CACHE_TTL`, and treated as absent (and evicted) once older; the
eviction side effect is not observed by the returned value and is omitted. -/
def _cache_get (c : Cache) (model text : PyStr) (now : Nat) : Option PyVal :=
  match cacheLookup c (_hash_key model text) with
  | Option.none => Option.none
  | some (ts, v) => if CACHE_TTL < now - ts then Option.none else some v

/-- The key under which `/spellcheck` reads and writes its cache entry
(lines 135, 203). -/
def spellcheck_cache_key (model text : PyStr) : Sha256Digest := _hash_key model text

/-- The key under which `/correct` reads and writes its cache entry
(lines 213, 225): the text is tagged with the fixed prefix `"AUTO|"`. -/
def correct_cache_key (model text : PyStr) : Sha256Digest :=
  _hash_key model ("AUTO|".toList ++ text)

/-- The cache read performed by `/spellcheck` (line 135). -/
def spellcheck_cache_get (c : Cache) (model text : PyStr) (now : Nat) : Option PyVal :=
  _cache_get c model text now

/-- The cache write performed by `/spellcheck` (line 203). -/
def spellcheck_cache_set (c : Cache) (model text : PyStr) (now : Nat) (v : PyVal) : Cache :=
  _cache_set c model text now v

/-- The cache read performed by `/correct` (line 213). -/
def correct_cache_get (c : Cache) (model text : PyStr) (now : Nat) : Option PyVal :=
  _cache_get c model ("AUTO|".toList ++ text) now

/-- The cache write performed by `/correct` (line 225). -/
def correct_cache_set (c : Cache) (model text : PyStr) (now : Nat) (v : PyVal) : Cache :=
  _cache_set c model ("AUTO|".toList ++ text) now v

/-! ## Spec-side definitions used to state the claims -/

/-- The Occurrence Locator's contract as the spec words it: `w` occurs at
`i` as a case-insensitive whole-word match — the slice of `ch` at
`[i, i+len w)` equals `w` up to case, the position before `i` is the start
of the string or a non-word character, and the position after the match is
the end of the string or a non-word character. -/
def specWholeWord (ch w : PyStr) (i : Nat) : Bool :=
  decide (i + w.length ≤ ch.length) &&
    (pyLowerStr (pySlice ch i (i + w.length)) == pyLowerStr w) &&
    !prevIsWord ch i && !isWordAt ch (i + w.length)

def isStrVal : PyVal → Bool
  | PyVal.str _ => true
  | _ => false

/-- Every annotation in the extracted reply whose `misspelled_word` is a
string has a non-empty one (hypothesis of the single-chunk position
invariant: an empty reported word produces zero-width `\b` matches). -/
def reportedWordsNonempty (resp : PyStr) : Bool :=
  (_extract_json_list resp).all (fun item =>
    match pyGetOpt item ("misspelled_word".toList) with
    | some (PyVal.str w) => !w.isEmpty
    | _ => true)

/-- A well-shaped annotation item: an object whose `misspelled_word` is a
string and whose `suggestion` is an array of strings. -/
def wfItemB (item : PyVal) : Bool :=
  match pyGetOpt item ("misspelled_word".toList), pyGetOpt item ("suggestion".toList) with
  | some (PyVal.str _), some (PyVal.list ts) => ts.all isStrVal
  | _, _ => false


/-- The pure content of `set(...)` construction: fold retaining first
occurrences only. -/
def setDedupFold (acc : List PyVal) : List PyVal → List PyVal
  | [] => acc
  | x :: r => setDedupFold (if x ∈ acc then acc else acc ++ [x]) r

def setDedup (l : List PyVal) : List PyVal := setDedupFold [] l

/-- The pure content of the suggestion-union loop when the stored
suggestions value is a list: append each incoming value not in `seen`,
tracking it in `seen` as well. -/
def mergeFoldPure (xs seen : List PyVal) : List PyVal → List PyVal
  | [] => xs
  | t :: r =>
    if t ∈ seen then mergeFoldPure xs seen r
    else mergeFoldPure (xs ++ [t]) (seen ++ [t]) r


/-- A position is valid for the original text: a non-empty half-open range
within the text whose slice, lowercased, equals the entry's key. -/
def posWithin (txt : PyStr) (k : PyStr) (p : Nat × Nat) : Prop :=
  p.1 < p.2 ∧ p.2 ≤ txt.length ∧ pyLowerStr (pySlice txt p.1 p.2) = k

/-- The single-chunk aggregator invariant: every entry is keyed by the
lowercased word it stores and all its positions are valid for the text. -/
def aggStateOk (txt : PyStr) (st : AggState) : Prop :=
  ∀ kv ∈ st, pyLowerStr kv.2.word = kv.1 ∧ ∀ p ∈ kv.2.positions, posWithin txt kv.1 p


/-- Aggregator-state well-formedness used for the no-exception theorem:
every stored suggestions value is an array of strings. -/
def suggListWf (st : AggState) : Prop :=
  ∀ kv ∈ st, ∃ ss, kv.2.suggestions = PyVal.list ss ∧ ∀ t ∈ ss, isStrVal t = true

/-! # Theorems -/

/-! ## C10 — the `/correct` and `/spellcheck` cache namespaces overlap -/

/-- Claim C10: for every model `m` and text `t`, the cache key computed by
`/correct` for `t` equals the one computed by `/spellcheck` for
`"AUTO|" + t` — both are the sha256 digest of `m + "||" + "AUTO|" + t` — so
a cached `/correct` result for `t` is returned by `/spellcheck` for
`"AUTO|" + t` within the TTL window, and vice versa. -/
theorem C10_cache_namespaces_overlap (m t : PyStr) (c : Cache) (now later : Nat)
    (v v2 : PyVal) (h : later - now ≤ CACHE_TTL) :
    correct_cache_key m t = spellcheck_cache_key m ("AUTO|".toList ++ t) ∧
    (correct_cache_key m t).preimage = m ++ "||".toList ++ "AUTO|".toList ++ t ∧
    spellcheck_cache_get (correct_cache_set c m t now v) m ("AUTO|".toList ++ t) later
      = some v ∧
    correct_cache_get (spellcheck_cache_set c m ("AUTO|".toList ++ t) now v2) m t later
      = some v2 := by
  have h60 : later - now ≤ 60 := h
  refine ⟨rfl, by simp [correct_cache_key, _hash_key, List.append_assoc], ?_, ?_⟩ <;>
    simp [spellcheck_cache_get, correct_cache_get, correct_cache_set,
      spellcheck_cache_set, _cache_get, _cache_set, cacheLookup, CACHE_TTL] <;>
    omega

/-- Witness for C10 at concrete inputs. -/
theorem C10_witness :
    correct_cache_key ("m".toList) ("t".toList)
        = spellcheck_cache_key ("m".toList) ("AUTO|".toList ++ "t".toList) ∧
    (correct_cache_key ("m".toList) ("t".toList)).preimage
        = "m".toList ++ "||".toList ++ "AUTO|".toList ++ "t".toList ∧
    spellcheck_cache_get
        (correct_cache_set [] ("m".toList) ("t".toList) 0 (PyVal.str ['x']))
        ("m".toList) ("AUTO|".toList ++ "t".toList) 30 = some (PyVal.str ['x']) ∧
    correct_cache_get
        (spellcheck_cache_set [] ("m".toList) ("AUTO|".toList ++ "t".toList) 0
          (PyVal.str ['y'])) ("m".toList) ("t".toList) 30 = some (PyVal.str ['y']) :=
  C10_cache_namespaces_overlap ("m".toList) ("t".toList) [] 0 30
    (PyVal.str ['x']) (PyVal.str ['y']) (by decide)

/-! ## C9 — the response extractor -/

/-- Claim C9: the Response Extractor takes the substring from the first `[`
to the last `]` and parses it as JSON (conjunct three: when that parse yields
an array, the array is returned); when there is no `[`, no `]`, or the last
`]` does not lie strictly after the first `[`, or when the substring fails to
parse, it returns the empty list and never raises (conjuncts one and two, and
totality of `_extract_json_list`); in particular on
`"blah [1,2,3] blah"` it returns `[1,2,3]` (conjunct four). -/
theorem C9_extractor (t u v : PyStr) (i j a b : Nat) (l : List PyVal)
    (h1 : pyFind t '[' = Option.none ∨ pyRfind t ']' = Option.none ∨
      (∃ p q, pyFind t '[' = some p ∧ pyRfind t ']' = some q ∧ q ≤ p))
    (h2 : pyFind u '[' = some i) (h3 : pyRfind u ']' = some j) (h4 : i < j)
    (h5 : json_loads (pySlice u i (j + 1)) = Option.none)
    (h6 : pyFind v '[' = some a) (h7 : pyRfind v ']' = some b) (h8 : a < b)
    (h9 : json_loads (pySlice v a (b + 1)) = some (PyVal.list l)) :
    _extract_json_list t = [] ∧ _extract_json_list u = [] ∧
    _extract_json_list v = l ∧
    _extract_json_list ("blah [1,2,3] blah".toList)
      = [PyVal.int 1, PyVal.int 2, PyVal.int 3] := by
  refine ⟨?_, ?_, ?_, by decide⟩
  · rcases h1 with h | h | ⟨p, q, hp, hq, hpq⟩
    · simp [_extract_json_list, h]
    · cases hf : pyFind t '[' <;> simp [_extract_json_list, hf, h]
    · simp [_extract_json_list, hp, hq, hpq]
  · simp [_extract_json_list, h2, h3, Nat.not_le.mpr h4, h5]
  · simp [_extract_json_list, h6, h7, Nat.not_le.mpr h8, h9]

/-- Witness for C9: a bracket-free text, a bracketed but unparseable text
(`"[[]"`), and a text whose bracketed substring parses (`"x[1]y"`). -/
theorem C9_witness :
    _extract_json_list ("no brackets here".toList) = [] ∧
    _extract_json_list ("[[]".toList) = [] ∧
    _extract_json_list ("x[1]y".toList) = [PyVal.int 1] ∧
    _extract_json_list ("blah [1,2,3] blah".toList)
      = [PyVal.int 1, PyVal.int 2, PyVal.int 3] :=
  C9_extractor ("no brackets here".toList) ("[[]".toList) ("x[1]y".toList)
    0 2 1 3 [PyVal.int 1] (Or.inl (by decide)) (by decide) (by decide)
    (by decide) (by decide) (by decide) (by decide) (by decide) (by decide)

/-! ## Counterexamples and code-bug evaluations -/

/-- Counterexample to claim C1 as stated: on `"aa bb cc dd"` with
`max_chunk_chars = 5` the chunker produces four reconstructed chunks whose
lengths total 15, so when the model reports `"dd"` in the last chunk the
returned position is `(12, 14)` although the original text has length 11 —
the claimed invariant `end <= len(text)` fails once the input is split into
more than one chunk. -/
theorem C1_counterexample :
    spellcheck_pipeline ("aa bb cc dd".toList) 5
        ["[]".toList, "[]".toList, "[]".toList,
         "[\x7b\"misspelled_word\": \"dd\", \"suggestion\": [\"DD\"]\x7d]".toList]
      = Except.ok [⟨"dd".toList, PyVal.list [PyVal.str ("DD".toList)], [(12, 14)]⟩] ∧
    ("aa bb cc dd".toList).length < 14 := by
  exact ⟨by decide, by decide⟩

/-- Evaluation for claim C2 at the failing input: with the scalar-string
suggestion shape that the code's own prompt mandates, the first sighting
stores the raw scalar `"have"` — not a list — in the `suggestions` field
(first two conjuncts), and a second sighting of the same key with another
scalar suggestion raises `AttributeError` from `.append` on a string (third
conjunct): no normalization to a list ever happens. -/
theorem C2_scalar_suggestion_not_normalized :
    spellcheck_pipeline ("I has a apple".toList) 1600
        ["[\x7b\"misspelled_word\": \"has\", \"suggestion\": \"have\"\x7d]".toList]
      = Except.ok [⟨"has".toList, PyVal.str ("have".toList), [(2, 5)]⟩] ∧
    isListVal (PyVal.str ("have".toList)) = false ∧
    spellcheck_pipeline ("I has a apple".toList) 1600
        ["[\x7b\"misspelled_word\": \"has\", \"suggestion\": \"have\"\x7d, \x7b\"misspelled_word\": \"Has\", \"suggestion\": \"has\"\x7d]".toList]
      = Except.error PyErr.attributeError := by
  exact ⟨by decide, rfl, by decide⟩

/-- Counterexample to claim C3 as stated: a reply whose extracted array
contains an element that is not an object (`"[1]"`) makes the pipeline raise
`AttributeError` (`item.get` on an int), which propagates to the caller
instead of being recovered locally. -/
theorem C3_counterexample :
    spellcheck_pipeline ("hello".toList) 1600 ["[1]".toList]
      = Except.error PyErr.attributeError := by
  decide

/-- Counterexample to claim C4 as stated: `chunk_text "ab cd" 3` returns
`["ab ", " cd "]`, whose concatenation is `"ab  cd "`, not the original
`"ab cd"` — splitting re-inserts spaces, so concatenation does not
reconstruct the text exactly. -/
theorem C4_counterexample :
    List.flatten (chunk_text ("ab cd".toList) 3) = "ab  cd ".toList ∧
    (List.flatten (chunk_text ("ab cd".toList) 3) == "ab cd".toList) = false := by
  exact ⟨by decide, by decide⟩

/-- Counterexample to claim C5 as stated: `chunk_text "abcd ef" 4` returns
a chunk `" abcd "` of length 6 > 4 — a word of length ≥ maxChars − 1 makes
the freshly started chunk exceed the budget. -/
theorem C5_counterexample :
    chunk_text ("abcd ef".toList) 4 = [[], " abcd ".toList, " ef ".toList] ∧
    4 < (" abcd ".toList).length := by
  exact ⟨by decide, by decide⟩

/-- Counterexample to claim C6 as stated: `chunk_text "abcdef g" 3` returns
`["", " abcdef ", " g "]` — when the first word alone exceeds the budget the
packing loop flushes the initial empty accumulator, and that empty first
chunk is not filtered out (only the final artifact is guarded by
`if current_text`). -/
theorem C6_counterexample :
    chunk_text ("abcdef g".toList) 3 = [[], " abcdef ".toList, " g ".toList] ∧
    [] ∈ chunk_text ("abcdef g".toList) 3 := by
  exact ⟨by decide, by decide⟩

/-! ## Chunker lemmas -/

theorem splitSp_ne_nil (s : PyStr) : splitSp s ≠ [] := by
  cases s with
  | nil => simp [splitSp]
  | cons c r =>
    by_cases hc : c = ' '
    · simp [splitSp, hc]
    · simp only [splitSp, if_neg hc]
      cases h : splitSp r <;> simp

theorem splitSp_no_space (s : PyStr) : ∀ w ∈ splitSp s, ' ' ∉ w := by
  induction s with
  | nil =>
    intro w hw
    simp only [splitSp, List.mem_singleton] at hw
    subst hw; simp
  | cons c r ih =>
    intro w hw
    by_cases hc : c = ' '
    · subst hc
      simp only [splitSp, if_pos rfl] at hw
      rcases List.mem_cons.mp hw with h | h
      · subst h; simp
      · exact ih w h
    · simp only [splitSp, if_neg hc] at hw
      obtain ⟨t, ts, hr⟩ := List.exists_cons_of_ne_nil (splitSp_ne_nil r)
      rw [hr] at hw
      rcases List.mem_cons.mp hw with h | h
      · subst h
        intro hsp
        rcases List.mem_cons.mp hsp with h1 | h1
        · exact hc h1.symm
        · exact ih t (hr ▸ List.mem_cons_self t ts) h1
      · exact ih w (hr ▸ List.mem_cons_of_mem t h)

theorem splitSp_append_space (xs ys : PyStr) :
    splitSp (xs ++ ' ' :: ys) = splitSp xs ++ splitSp ys := by
  induction xs with
  | nil => simp [splitSp]
  | cons c r ih =>
    by_cases hc : c = ' '
    · subst hc; simp [splitSp, ih]
    · rw [List.cons_append]
      simp only [splitSp, if_neg hc, ih]
      obtain ⟨t, ts, hr⟩ := List.exists_cons_of_ne_nil (splitSp_ne_nil r)
      rw [hr]
      simp

theorem splitSp_of_no_space (w : PyStr) (h : ' ' ∉ w) : splitSp w = [w] := by
  induction w with
  | nil => rfl
  | cons c r ih =>
    have hc : c ≠ ' ' := by
      intro he; subst he; exact h (List.mem_cons_self _ _)
    simp only [splitSp, if_neg hc]
    rw [ih (fun hr => h (List.mem_cons_of_mem c hr))]

theorem wordsOf_nil : wordsOf [] = [] := rfl

theorem wordsOf_space_cons (z : PyStr) : wordsOf (' ' :: z) = wordsOf z := by
  simp [wordsOf, splitSp]

theorem wordsOf_append_space (xs ys : PyStr) :
    wordsOf (xs ++ ' ' :: ys) = wordsOf xs ++ wordsOf ys := by
  simp [wordsOf, splitSp_append_space, List.filter_append]

theorem wordsOf_word_space (w : PyStr) (h : ' ' ∉ w) :
    wordsOf (w ++ [' ']) = if w.isEmpty then [] else [w] := by
  have : w ++ [' '] = w ++ ' ' :: [] := rfl
  rw [this, wordsOf_append_space, wordsOf_nil, List.append_nil, wordsOf,
    splitSp_of_no_space w h]
  cases w <;> simp [List.filter]

theorem wordsOf_trailing_space (d : PyStr) : wordsOf (d ++ [' ']) = wordsOf d := by
  have : d ++ [' '] = d ++ ' ' :: [] := rfl
  rw [this, wordsOf_append_space, wordsOf_nil, List.append_nil]

theorem chunkLoop_words (m : Nat) :
    ∀ (ws : List PyStr), (∀ w ∈ ws, ' ' ∉ w) →
    ∀ parts current, (current = [] ∨ ∃ d, current = d ++ [' ']) →
    List.flatten (((chunkLoop m parts current ws).1).map wordsOf)
        ++ wordsOf (chunkLoop m parts current ws).2
      = List.flatten (parts.map wordsOf) ++ wordsOf current
          ++ ws.filter (fun w => !w.isEmpty) := by
  intro ws
  induction ws with
  | nil =>
    intro _ parts current _
    simp [chunkLoop]
  | cons word rest ih =>
    intro hws parts current hcur
    have hword : ' ' ∉ word := hws word (List.mem_cons_self _ _)
    have hrest : ∀ w ∈ rest, ' ' ∉ w := fun w hw => hws w (List.mem_cons_of_mem _ hw)
    have hcur' : wordsOf current = List.flatten ([current].map wordsOf) := by simp
    simp only [chunkLoop]
    split
    · rw [ih hrest (parts ++ [current]) ((' ' :: word) ++ [' '])
        (Or.inr ⟨' ' :: word, rfl⟩)]
      have h1 : wordsOf ((' ' :: word) ++ [' ']) = wordsOf (word ++ [' ']) := by
        rw [List.cons_append, wordsOf_space_cons]
      rw [h1, wordsOf_word_space word hword, List.filter_cons]
      simp only [List.map_append, List.flatten_append, List.map_cons, List.map_nil,
        List.flatten_cons, List.flatten_nil, List.append_nil, List.append_assoc]
      cases hw : word.isEmpty <;> simp
    · rw [ih hrest parts ((current ++ word) ++ [' ']) (Or.inr ⟨current ++ word, rfl⟩)]
      have h2 : wordsOf ((current ++ word) ++ [' '])
          = wordsOf current ++ (if word.isEmpty then [] else [word]) := by
        rcases hcur with hc | ⟨d, hd⟩
        · subst hc
          simp [wordsOf_word_space word hword, wordsOf_nil]
        · subst hd
          have : (d ++ [' '] ++ word) ++ [' '] = d ++ ' ' :: (word ++ [' ']) := by
            simp
          rw [this, wordsOf_append_space, wordsOf_word_space word hword,
            wordsOf_trailing_space]
      rw [h2, List.filter_cons]
      cases hw : word.isEmpty <;> simp [List.append_assoc]

theorem chunk_words_join (s : PyStr) (m : Nat) :
    List.flatten ((chunk_text s m).map wordsOf) = wordsOf s := by
  unfold chunk_text
  split
  · simp
  · have h := chunkLoop_words m (splitSp s) (splitSp_no_space s) [] [] (Or.inl rfl)
    rcases hcl : chunkLoop m [] [] (splitSp s) with ⟨parts, current⟩
    rw [hcl] at h
    simp only
    split
    · rename_i hemp
      have hc : current = [] := by
        cases current
        · rfl
        · simp at hemp
      subst hc
      simpa [wordsOf, splitSp] using h
    · simpa [wordsOf, splitSp, List.append_assoc] using h

theorem chunkLoop_len (m : Nat) :
    ∀ (ws : List PyStr), (∀ w ∈ ws, w.length + 2 ≤ m) →
    ∀ parts current, (∀ p ∈ parts, p.length ≤ m) → current.length ≤ m →
    (∀ p ∈ (chunkLoop m parts current ws).1, p.length ≤ m) ∧
      (chunkLoop m parts current ws).2.length ≤ m := by
  intro ws
  induction ws with
  | nil =>
    intro _ parts current hp hc
    exact ⟨hp, hc⟩
  | cons word rest ih =>
    intro hws parts current hp hc
    have hw2 : word.length + 2 ≤ m := hws word (List.mem_cons_self _ _)
    have hrest : ∀ w ∈ rest, w.length + 2 ≤ m :=
      fun w hw => hws w (List.mem_cons_of_mem _ hw)
    simp only [chunkLoop]
    split
    · apply ih hrest
      · intro p hp2
        rcases List.mem_append.mp hp2 with h | h
        · exact hp p h
        · rw [List.mem_singleton.mp h]; exact hc
      · simp; omega
    · rename_i hnb
      apply ih hrest parts _ hp
      simp only [List.length_append, List.length_cons, List.length_nil]
      omega

theorem chunkLoop_ne (m : Nat) :
    ∀ (ws : List PyStr) (parts : List PyStr) (current : PyStr),
    (∀ p ∈ parts.tail, p ≠ []) → (current = [] → parts = []) →
    (∀ p ∈ (chunkLoop m parts current ws).1.tail, p ≠ []) ∧
      ((chunkLoop m parts current ws).2 = [] → (chunkLoop m parts current ws).1 = []) := by
  intro ws
  induction ws with
  | nil =>
    intro parts current hp hc
    exact ⟨hp, hc⟩
  | cons word rest ih =>
    intro parts current hp hc
    simp only [chunkLoop]
    split
    · apply ih
      · intro p hp2
        cases parts with
        | nil => simp at hp2
        | cons q qs =>
          rw [List.cons_append, List.tail_cons] at hp2
          rcases List.mem_append.mp hp2 with h | h
          · exact hp p h
          · rw [List.mem_singleton.mp h]
            intro hce
            exact (List.cons_ne_nil q qs) (hc hce)
      · intro h
        simp at h
    · apply ih
      · exact hp
      · intro h
        simp at h

/-! ## C4, C5, C6 — amended chunker claims -/

/-- Claim C4 (amended): concatenating the chunks reconstructs the text
exactly when the text fits in one chunk; in general the chunker re-inserts
single spaces, so only the words are preserved: flattening the per-chunk
word lists (splitting on spaces, dropping empties) yields exactly the words
of the original text, in order, with none dropped or duplicated. -/
theorem C4_amended (s t : PyStr) (n m : Nat) (h : s.length ≤ n) :
    List.flatten (chunk_text s n) = s ∧
    List.flatten ((chunk_text t m).map wordsOf) = wordsOf t := by
  constructor
  · unfold chunk_text
    rw [if_pos h]
    simp
  · exact chunk_words_join t m

/-- Witness for C4 at concrete inputs. -/
theorem C4_witness :
    List.flatten (chunk_text ("abc".toList) 5) = "abc".toList ∧
    List.flatten ((chunk_text ("ab cd".toList) 3).map wordsOf)
      = wordsOf ("ab cd".toList) :=
  C4_amended ("abc".toList) ("ab cd".toList) 5 3 (by decide)

/-- Claim C5 (amended): when the text fits in `maxChars` the chunker returns
exactly one chunk equal to the text; it splits only at space boundaries
(never inside a word: flattening the per-chunk word lists yields the
original's words); and every chunk's length is at most `maxChars` provided
every space-separated word has length at most `maxChars - 2` (a longer word
makes the freshly restarted chunk `" " + word + " "` exceed the budget, as
the counterexample shows). -/
theorem C5_amended (s t u : PyStr) (n m k : Nat) (h1 : s.length ≤ n)
    (h2 : ∀ w ∈ splitSp u, w.length + 2 ≤ k) :
    chunk_text s n = [s] ∧
    List.flatten ((chunk_text t m).map wordsOf) = wordsOf t ∧
    ∀ c ∈ chunk_text u k, c.length ≤ k := by
  refine ⟨by unfold chunk_text; rw [if_pos h1], chunk_words_join t m, ?_⟩
  unfold chunk_text
  split
  · rename_i hfits
    intro c hc
    rw [List.mem_singleton.mp hc]
    exact hfits
  · have h := chunkLoop_len k (splitSp u) h2 [] [] (by simp) (by simp)
    rcases hcl : chunkLoop k [] [] (splitSp u) with ⟨parts, current⟩
    rw [hcl] at h
    simp only
    split
    · exact h.1
    · intro c hc
      rcases List.mem_append.mp hc with hcp | hcc
      · exact h.1 c hcp
      · rw [List.mem_singleton.mp hcc]
        exact h.2

/-- Witness for C5 at concrete inputs. -/
theorem C5_witness :
    chunk_text ("abc".toList) 5 = ["abc".toList] ∧
    List.flatten ((chunk_text ("ab cd".toList) 3).map wordsOf)
      = wordsOf ("ab cd".toList) ∧
    ∀ c ∈ chunk_text ("ab cd".toList) 5, c.length ≤ 5 :=
  C5_amended ("abc".toList) ("ab cd".toList) ("ab cd".toList) 5 3 5
    (by decide) (by decide)

/-- Claim C6 (amended): every chunk other than possibly the first is
non-empty — the `if current_text` guard keeps an empty final artifact out,
but the first chunk is empty when the whole text is empty (single-chunk
case) or when the very first word already exceeds the budget, as the
counterexample shows. -/
theorem C6_amended (s : PyStr) (n : Nat) :
    ((chunk_text s n).tail.all (fun c => !c.isEmpty)) = true := by
  rw [List.all_eq_true]
  intro c hc
  suffices hne : ¬ c = [] by
    cases c
    · exact absurd rfl hne
    · rfl
  revert hc
  unfold chunk_text
  split
  · intro hc
    simp at hc
  · have h := chunkLoop_ne n (splitSp s) [] [] (by simp) (fun _ => rfl)
    rcases hcl : chunkLoop n [] [] (splitSp s) with ⟨parts, current⟩
    rw [hcl] at h
    simp only
    split
    · rename_i hemp
      intro hc
      have hcur : current = [] := by
        cases current
        · rfl
        · simp at hemp
      have hps : parts = [] := h.2 hcur
      rw [hps] at hc
      simp at hc
    · rename_i hemp
      intro hc
      cases parts with
      | nil =>
        rw [List.nil_append, List.tail_cons] at hc
        simp at hc
      | cons q qs =>
        rw [List.cons_append, List.tail_cons] at hc
        rcases List.mem_append.mp hc with hq | hq
        · exact h.1 c (by simpa using hq)
        · rw [List.mem_singleton.mp hq]
          intro hce
          subst hce
          simp at hemp

/-! ## Occurrence-locator lemmas (C8, also used for C1) -/

theorem char_toNat_ofNat_small (n : Nat) (h : n < 128) : (Char.ofNat n).toNat = n := by
  unfold Char.ofNat
  split
  · rfl
  · rename_i hv
    exact absurd (Or.inl (by omega)) hv

/-- `pyLower` preserves word-character-ness in both directions. -/
theorem wordchar_pyLower (c : Char) : isWordChar (pyLower c) = isWordChar c := by
  unfold pyLower
  split
  · rename_i hu
    have ht : (Char.ofNat (c.toNat + 32)).toNat = c.toNat + 32 :=
      char_toNat_ofNat_small _ (by omega)
    have hl : isWordChar (Char.ofNat (c.toNat + 32)) = true := by
      simp only [isWordChar, ht, Bool.or_eq_true, Bool.and_eq_true,
        decide_eq_true_eq, Nat.beq_eq_true_eq]
      omega
    have hr : isWordChar c = true := by
      simp only [isWordChar, Bool.or_eq_true, Bool.and_eq_true,
        decide_eq_true_eq, Nat.beq_eq_true_eq]
      omega
    rw [hl, hr]
  · rfl

theorem pySlice_get (s : PyStr) (i n k : Nat) (hk : k < n) :
    (pySlice s i (i + n)).get? k = s.get? (i + k) := by
  unfold pySlice
  rw [List.get?_drop, List.get?_take (by omega)]

theorem lower_slice_pointwise (s w : PyStr) (i k : Nat) (hk : k < w.length)
    (heq : pyLowerStr (pySlice s i (i + w.length)) = pyLowerStr w) :
    ∃ a b, s.get? (i + k) = some a ∧ w.get? k = some b ∧ pyLower a = pyLower b := by
  have h1 := congrArg (fun l => l.get? k) heq
  simp only [pyLowerStr, List.get?_map] at h1
  rw [pySlice_get s i w.length k hk] at h1
  have hb := List.get?_eq_get hk
  rw [hb] at h1
  cases ha : s.get? (i + k) with
  | none => rw [ha] at h1; simp at h1
  | some a =>
    rw [ha] at h1
    simp only [Option.map_some'] at h1
    exact ⟨a, w.get ⟨k, hk⟩, rfl, hb, Option.some.inj h1⟩

theorem isWordAt_of_match (s w : PyStr) (i k : Nat) (hk : k < w.length)
    (hwc : ∀ c ∈ w, isWordChar c = true)
    (heq : pyLowerStr (pySlice s i (i + w.length)) = pyLowerStr w) :
    isWordAt s (i + k) = true := by
  obtain ⟨a, b, ha, hb, hab⟩ := lower_slice_pointwise s w i k hk heq
  have hbw : isWordChar b = true := hwc b (List.get?_mem hb)
  have haw : isWordChar a = true := by
    rw [← wordchar_pyLower a, hab, wordchar_pyLower b]
    exact hbw
  have ha2 : s[i + k]? = some a := by
    rw [← List.get?_eq_getElem?]
    exact ha
  simp [isWordAt, ha2, haw]

theorem matchesAt_iff (s w : PyStr) (i : Nat) :
    matchesAt s w i = true ↔
      i + w.length ≤ s.length ∧
        pyLowerStr (pySlice s i (i + w.length)) = pyLowerStr w ∧
        boundaryAt s i = true ∧ boundaryAt s (i + w.length) = true := by
  simp [matchesAt, Bool.and_eq_true, decide_eq_true_eq, and_assoc]

/-- Under the hypotheses of C8 (a non-empty, all-word-character word), the
regex match condition coincides with the spec's whole-word-occurrence
condition. -/
theorem matchesAt_eq_spec (s w : PyStr) (i : Nat) (hne : w ≠ [])
    (hwc : ∀ c ∈ w, isWordChar c = true) :
    matchesAt s w i = specWholeWord s w i := by
  have hn : 0 < w.length := List.length_pos.mpr hne
  by_cases h1 : i + w.length ≤ s.length
  · by_cases h2 : pyLowerStr (pySlice s i (i + w.length)) = pyLowerStr w
    · have hi : isWordAt s i = true := by
        have h := isWordAt_of_match s w i 0 hn hwc h2
        rwa [Nat.add_zero] at h
      have hj : isWordAt s (i + (w.length - 1)) = true :=
        isWordAt_of_match s w i (w.length - 1) (by omega) hwc h2
      have hprev : prevIsWord s (i + w.length) = true := by
        unfold prevIsWord
        rw [if_neg (by omega)]
        have he : i + w.length - 1 = i + (w.length - 1) := by omega
        rw [he]
        exact hj
      unfold matchesAt specWholeWord boundaryAt
      rw [hi, hprev]
      have hb2 : (pyLowerStr (pySlice s i (i + w.length)) == pyLowerStr w) = true := by
        simp [h2]
      rw [hb2]
      simp only [decide_eq_true (show i + w.length ≤ s.length from h1), Bool.true_and]
      cases prevIsWord s i <;> cases isWordAt s (i + w.length) <;> rfl
    · unfold matchesAt specWholeWord
      have hb2 : (pyLowerStr (pySlice s i (i + w.length)) == pyLowerStr w) = false := by
        simp [h2]
      rw [hb2]
      simp
  · unfold matchesAt specWholeWord
    simp [h1]

/-- Two genuine matches of the same all-word-character word cannot overlap:
every interior position of a match has word characters on both sides, so no
word boundary can open a second match there. -/
theorem match_no_overlap (s w : PyStr) (i j : Nat)
    (hwc : ∀ c ∈ w, isWordChar c = true)
    (hm : matchesAt s w i = true) (h1 : i < j) (h2 : j < i + w.length) :
    matchesAt s w j = false := by
  have hdec := (matchesAt_iff s w i).mp hm
  have hcur : isWordAt s j = true := by
    have h := isWordAt_of_match s w i (j - i) (by omega) hwc hdec.2.1
    have he : i + (j - i) = j := by omega
    rwa [he] at h
  have hprev : prevIsWord s j = true := by
    unfold prevIsWord
    rw [if_neg (by omega)]
    have h := isWordAt_of_match s w i (j - 1 - i) (by omega) hwc hdec.2.1
    have he : i + (j - 1 - i) = j - 1 := by omega
    rwa [he] at h
  unfold matchesAt boundaryAt
  rw [hcur, hprev]
  simp

/-- The non-overlapping left-to-right scan of `finditer` collects exactly
the positions where the pattern matches, provided matches cannot overlap. -/
theorem finditerFrom_eq (s w : PyStr)
    (hno : ∀ i j, matchesAt s w i = true → i < j → j < i + w.length →
      matchesAt s w j = false) :
    ∀ fuel i, s.length + 1 ≤ fuel + i →
    finditerFrom s w i fuel
      = ((List.range' i (s.length + 1 - i)).filter (fun j => matchesAt s w j)).map
          (fun j => (j, j + w.length)) := by
  intro fuel
  induction fuel with
  | zero =>
    intro i hi
    have hz : s.length + 1 - i = 0 := by omega
    rw [hz]
    simp [finditerFrom]
  | succ fuel ih =>
    intro i hi
    by_cases hlen : s.length < i
    · have hz : s.length + 1 - i = 0 := by omega
      rw [hz]
      simp [finditerFrom, hlen]
    · have hcnt : s.length + 1 - i = (s.length - i) + 1 := by omega
      rw [hcnt, List.range'_succ]
      by_cases hm : matchesAt s w i = true
      · have hle : i + w.length ≤ s.length := ((matchesAt_iff s w i).mp hm).1
        have hd1 : 1 ≤ max w.length 1 := le_max_right _ _
        have hdle : i + max w.length 1 ≤ s.length + 1 := by
          rcases Nat.le_total w.length 1 with h | h
          · rw [max_eq_right h]; omega
          · rw [max_eq_left h]; omega
        have hsplit : List.range' (i + 1) (s.length - i)
            = List.range' (i + 1) (max w.length 1 - 1)
              ++ List.range' (i + max w.length 1) (s.length + 1 - (i + max w.length 1)) := by
          have := List.range'_append (i + 1) (max w.length 1 - 1)
            (s.length + 1 - (i + max w.length 1)) 1
          rw [Nat.one_mul] at this
          have he1 : i + 1 + (max w.length 1 - 1) = i + max w.length 1 := by omega
          have he2 : s.length + 1 - (i + max w.length 1) + (max w.length 1 - 1)
              = s.length - i := by omega
          rw [he1, he2] at this
          exact this.symm
        have hmid : ∀ j ∈ List.range' (i + 1) (max w.length 1 - 1),
            matchesAt s w j = false := by
          intro j hj
          rcases List.mem_range'_1.mp hj with ⟨hj1, hj2⟩
          exact hno i j hm (by omega) (by omega)
        simp only [finditerFrom, if_neg hlen, if_pos hm]
        rw [ih (i + max w.length 1) (by omega)]
        rw [List.filter_cons_of_pos hm, hsplit, List.filter_append]
        have hmid0 : (List.range' (i + 1) (max w.length 1 - 1)).filter
            (fun j => matchesAt s w j) = [] := by
          rw [List.filter_eq_nil_iff]
          intro j hj
          simp [hmid j hj]
        rw [hmid0]
        simp
      · simp only [finditerFrom, if_neg hlen, if_neg hm]
        rw [ih (i + 1) (by omega)]
        rw [List.filter_cons_of_neg (by simpa using hm)]
        have he : s.length + 1 - (i + 1) = s.length - i := by omega
        rw [he]

/-- `finditer` finds exactly the matching positions, in increasing order. -/
theorem finditer_eq (s w : PyStr)
    (hwc : ∀ c ∈ w, isWordChar c = true) :
    finditer s w
      = ((List.range (s.length + 1)).filter (fun j => matchesAt s w j)).map
          (fun j => (j, j + w.length)) := by
  rw [finditer,
    finditerFrom_eq s w (fun i j him => match_no_overlap s w i j hwc him)
      (s.length + 1) 0 (by omega),
    List.range_eq_range']
  simp

/-! ## C8 — the occurrence locator -/

/-- Claim C8: for a non-empty reported word made of word characters (treated
literally — the embedding matches the escaped word character-for-character),
`locate` returns exactly the case-insensitive whole-word occurrences of the
word, in increasing position order, each translated to global coordinates by
adding the chunk's offset; and concretely
`locate "The Teh cat" "teh" 0 = [(4,7)]` and `locate "cats" "cat" 0 = []`. -/
theorem C8_locator (ch w : PyStr) (off : Nat) (hne : w ≠ [])
    (hwc : ∀ c ∈ w, isWordChar c = true) :
    locate ch w off
      = ((List.range (ch.length + 1)).filter (specWholeWord ch w)).map
          (fun i => (off + i, off + i + w.length)) ∧
    locate ("The Teh cat".toList) ("teh".toList) 0 = [(4, 7)] ∧
    locate ("cats".toList) ("cat".toList) 0 = [] := by
  refine ⟨?_, by decide, by decide⟩
  rw [locate, finditer_eq ch w hwc, List.map_map]
  have hf : (fun j => matchesAt ch w j) = specWholeWord ch w :=
    funext (fun j => matchesAt_eq_spec ch w j hne hwc)
  rw [hf]
  apply List.map_congr_left
  intro a _
  simp [Function.comp, Nat.add_assoc]

/-- Witness for C8 at the spec's own example. -/
theorem C8_witness :
    locate ("The Teh cat".toList) ("teh".toList) 0
      = ((List.range (("The Teh cat".toList).length + 1)).filter
          (specWholeWord ("The Teh cat".toList) ("teh".toList))).map
          (fun i => (0 + i, 0 + i + ("teh".toList).length)) ∧
    locate ("The Teh cat".toList) ("teh".toList) 0 = [(4, 7)] ∧
    locate ("cats".toList) ("cat".toList) 0 = [] :=
  C8_locator ("The Teh cat".toList) ("teh".toList) 0 (by decide) (by decide)

/-! ## Aggregator merge lemmas (C7) -/

theorem pySetFold_ok (xs : List PyVal) :
    ∀ acc, (∀ x ∈ xs, pyHashable x = true) →
    pySetFold acc xs = Except.ok (setDedupFold acc xs) := by
  induction xs with
  | nil => intro acc _; rfl
  | cons x r ih =>
    intro acc hx
    have hxh : pyHashable x = true := hx x (List.mem_cons_self _ _)
    simp only [pySetFold, pySetAdd, if_pos hxh, setDedupFold]
    exact ih _ (fun y hy => hx y (List.mem_cons_of_mem _ hy))

theorem pySet_list_ok (ss : List PyVal) (hss : ∀ x ∈ ss, pyHashable x = true) :
    pySet (PyVal.list ss) = Except.ok (setDedup ss) := by
  simp only [pySet, pyIter]
  exact pySetFold_ok ss [] hss

theorem mem_setDedupFold (t : PyVal) :
    ∀ (l acc : List PyVal), t ∈ setDedupFold acc l ↔ t ∈ acc ∨ t ∈ l := by
  intro l
  induction l with
  | nil => intro acc; simp [setDedupFold]
  | cons x r ih =>
    intro acc
    simp only [setDedupFold]
    rw [ih]
    by_cases hx : x ∈ acc
    · rw [if_pos hx]
      constructor
      · rintro (h | h)
        · exact Or.inl h
        · exact Or.inr (List.mem_cons_of_mem _ h)
      · rintro (h | h)
        · exact Or.inl h
        · rcases List.mem_cons.mp h with he | hr
          · exact Or.inl (he ▸ hx)
          · exact Or.inr hr
    · rw [if_neg hx]
      simp only [List.mem_append, List.mem_singleton, List.mem_cons]
      tauto
  -- membership in the deduplicated set coincides with membership in the list

theorem mem_setDedup (t : PyVal) (l : List PyVal) : t ∈ setDedup l ↔ t ∈ l := by
  rw [setDedup, mem_setDedupFold]
  simp

theorem mergeSuggLoop_list_ok :
    ∀ (ts xs seen : List PyVal), (∀ t ∈ ts, pyHashable t = true) →
    mergeSuggLoop (PyVal.list xs) seen ts
      = Except.ok (PyVal.list (mergeFoldPure xs seen ts)) := by
  intro ts
  induction ts with
  | nil => intro xs seen _; rfl
  | cons t r ih =>
    intro xs seen ht
    have hth : pyHashable t = true := ht t (List.mem_cons_self _ _)
    have hr : ∀ x ∈ r, pyHashable x = true := fun x hx => ht x (List.mem_cons_of_mem _ hx)
    simp only [mergeSuggLoop, if_pos hth, mergeFoldPure]
    by_cases hmem : t ∈ seen
    · rw [if_pos hmem, if_pos hmem]
      exact ih xs seen hr
    · rw [if_neg hmem, if_neg hmem]
      exact ih (xs ++ [t]) (seen ++ [t]) hr

theorem mergeFoldPure_eq_suggUnion :
    ∀ (ts xs seen : List PyVal), (∀ t, t ∈ seen ↔ t ∈ xs) →
    mergeFoldPure xs seen ts = suggUnion xs ts := by
  intro ts
  induction ts with
  | nil => intro xs seen _; rfl
  | cons t r ih =>
    intro xs seen h
    have hfold : suggUnion xs (t :: r)
        = suggUnion (if t ∈ xs then xs else xs ++ [t]) r := rfl
    rw [hfold]
    simp only [mergeFoldPure]
    by_cases hmem : t ∈ seen
    · rw [if_pos hmem, if_pos ((h t).mp hmem)]
      exact ih xs seen h
    · rw [if_neg hmem, if_neg (fun hx => hmem ((h t).mpr hx))]
      apply ih
      intro u
      simp only [List.mem_append, List.mem_singleton]
      rw [h u]

theorem updateEntry_keys (st : AggState) (k : PyStr) (e : CorrectionEntry) :
    (updateEntry st k e).map Prod.fst = st.map Prod.fst := by
  unfold updateEntry
  rw [List.map_map]
  apply List.map_congr_left
  intro kv _
  by_cases h : kv.1 = k
  · simp [Function.comp, h]
  · simp [Function.comp, h]

/-! ## C7 — the correction aggregator's merge step -/

/-- Claim C7: on a subsequent sighting of an already-seen lowercase key
(with the stored and incoming suggestions in their array shape), the
positions lists are concatenated — the chunk's located occurrences appended
to the stored ones, cross-chunk duplicates preserved — and the suggestions
are unioned preserving first-seen order, skipping values already present
(conjunct one); the update changes no key and preserves the insertion order
of the dict (conjunct two); and merging two chunk results reporting
`"Teh"`/`"teh"` with suggestions `["The"]` and `["the","The"]` yields the
single Correction `word="Teh"`, `suggestions=["The","the"]`, with positions
the union of both chunks' matches (conjunct three). -/
theorem C7_merge (st : AggState) (ch : PyStr) (off : Nat)
    (kvs : List (PyStr × PyVal)) (w w0 : PyStr) (ss ts : List PyVal)
    (pos0 : List (Nat × Nat))
    (hw : pyLookup kvs ("misspelled_word".toList) = some (PyVal.str w))
    (hs : pyLookup kvs ("suggestion".toList) = some (PyVal.list ts))
    (hlk : lookupEntry st (pyLowerStr w) = some ⟨w0, PyVal.list ss, pos0⟩)
    (hss : ∀ t ∈ ss, pyHashable t = true) (hts : ∀ t ∈ ts, pyHashable t = true) :
    processItem ch off st (PyVal.dict kvs)
      = Except.ok (updateEntry st (pyLowerStr w)
          ⟨w0, PyVal.list (suggUnion ss ts), pos0 ++ locate ch w off⟩) ∧
    (updateEntry st (pyLowerStr w)
        ⟨w0, PyVal.list (suggUnion ss ts), pos0 ++ locate ch w off⟩).map Prod.fst
      = st.map Prod.fst ∧
    spellcheck_pipeline ("Teh cat teh dog".toList) 8
        ["[\x7b\"misspelled_word\": \"Teh\", \"suggestion\": [\"The\"]\x7d]".toList,
         "[\x7b\"misspelled_word\": \"teh\", \"suggestion\": [\"the\", \"The\"]\x7d]".toList]
      = Except.ok
          [⟨"Teh".toList,
            PyVal.list [PyVal.str ("The".toList), PyVal.str ("the".toList)],
            [(0, 3), (9, 12)]⟩] := by
  refine ⟨?_, updateEntry_keys st (pyLowerStr w) _, by decide⟩
  simp only [processItem, pyGet, pyGetOpt, hw, hs, Option.getD]
  rw [hlk]
  simp only
  rw [pySet_list_ok ss hss]
  simp only [pyIter]
  rw [mergeSuggLoop_list_ok ts ss (setDedup ss) hts]
  rw [mergeFoldPure_eq_suggUnion ts ss (setDedup ss) (fun t => mem_setDedup t ss)]

/-- Witness for C7: the spec's `"Teh"`/`"teh"` merge at concrete state. -/
theorem C7_witness :
    processItem (" teh ".toList) 8
        [("teh".toList,
          ⟨"Teh".toList, PyVal.list [PyVal.str ("The".toList)], [(0, 3)]⟩)]
        (PyVal.dict
          [("misspelled_word".toList, PyVal.str ("teh".toList)),
           ("suggestion".toList,
            PyVal.list [PyVal.str ("the".toList), PyVal.str ("The".toList)])])
      = Except.ok (updateEntry
          [("teh".toList,
            ⟨"Teh".toList, PyVal.list [PyVal.str ("The".toList)], [(0, 3)]⟩)]
          (pyLowerStr ("teh".toList))
          ⟨"Teh".toList,
           PyVal.list (suggUnion [PyVal.str ("The".toList)]
             [PyVal.str ("the".toList), PyVal.str ("The".toList)]),
           [(0, 3)] ++ locate (" teh ".toList) ("teh".toList) 8⟩) ∧
    (updateEntry
        [("teh".toList,
          ⟨"Teh".toList, PyVal.list [PyVal.str ("The".toList)], [(0, 3)]⟩)]
        (pyLowerStr ("teh".toList))
        ⟨"Teh".toList,
         PyVal.list (suggUnion [PyVal.str ("The".toList)]
           [PyVal.str ("the".toList), PyVal.str ("The".toList)]),
         [(0, 3)] ++ locate (" teh ".toList) ("teh".toList) 8⟩).map Prod.fst
      = ([("teh".toList,
          ⟨"Teh".toList, PyVal.list [PyVal.str ("The".toList)], [(0, 3)]⟩)] : AggState).map
          Prod.fst ∧
    spellcheck_pipeline ("Teh cat teh dog".toList) 8
        ["[\x7b\"misspelled_word\": \"Teh\", \"suggestion\": [\"The\"]\x7d]".toList,
         "[\x7b\"misspelled_word\": \"teh\", \"suggestion\": [\"the\", \"The\"]\x7d]".toList]
      = Except.ok
          [⟨"Teh".toList,
            PyVal.list [PyVal.str ("The".toList), PyVal.str ("the".toList)],
            [(0, 3), (9, 12)]⟩] :=
  C7_merge
    [("teh".toList, ⟨"Teh".toList, PyVal.list [PyVal.str ("The".toList)], [(0, 3)]⟩)]
    (" teh ".toList) 8
    [("misspelled_word".toList, PyVal.str ("teh".toList)),
     ("suggestion".toList,
      PyVal.list [PyVal.str ("the".toList), PyVal.str ("The".toList)])]
    ("teh".toList) ("Teh".toList) [PyVal.str ("The".toList)]
    [PyVal.str ("the".toList), PyVal.str ("The".toList)] [(0, 3)]
    (by decide) (by decide) (by decide) (by decide) (by decide)

/-! ## Pipeline invariant lemmas (C1, C3) -/

theorem pyGet_ok (item : PyVal) (k : PyStr) (v : PyVal)
    (h : pyGet item k = Except.ok v) : pyGetOpt item k = some v := by
  unfold pyGet at h
  cases ho : pyGetOpt item k with
  | none => rw [ho] at h; nomatch h
  | some u => rw [ho] at h; rw [Except.ok.inj h]

theorem finditerFrom_mem (s w : PyStr) :
    ∀ (fuel i : Nat) (q : Nat × Nat), q ∈ finditerFrom s w i fuel →
    matchesAt s w q.1 = true ∧ q.2 = q.1 + w.length := by
  intro fuel
  induction fuel with
  | zero => intro i q hq; simp [finditerFrom] at hq
  | succ fuel ih =>
    intro i q hq
    simp only [finditerFrom] at hq
    split at hq
    · simp at hq
    · split at hq
      · rename_i hm
        rcases List.mem_cons.mp hq with h | h
        · rw [h]
          exact ⟨hm, rfl⟩
        · exact ih _ q h
      · exact ih _ q hq

theorem locate_mem_facts (txt w : PyStr) (p : Nat × Nat)
    (hp : p ∈ locate txt w 0) (hne : w ≠ []) :
    p.1 < p.2 ∧ p.2 ≤ txt.length ∧
      pyLowerStr (pySlice txt p.1 p.2) = pyLowerStr w := by
  unfold locate at hp
  rcases List.mem_map.mp hp with ⟨q, hq, heq⟩
  obtain ⟨hm, he⟩ := finditerFrom_mem txt w (txt.length + 1) 0 q hq
  obtain ⟨hlen, hsl, _, _⟩ := (matchesAt_iff txt w q.1).mp hm
  have hwpos : 0 < w.length := List.length_pos.mpr hne
  have hp1 : p.1 = q.1 := by rw [← heq]; simp
  have hp2 : p.2 = q.2 := by rw [← heq]; simp
  rw [hp1, hp2, he]
  exact ⟨by omega, by omega, hsl⟩

theorem lookupEntry_mem : ∀ (st : AggState) (k : PyStr) (e : CorrectionEntry),
    lookupEntry st k = some e → (k, e) ∈ st := by
  intro st
  induction st with
  | nil => intro k e h; simp [lookupEntry] at h
  | cons kv r ih =>
    intro k e h
    cases kv with
    | mk a b =>
      simp only [lookupEntry] at h
      split at h
      · rename_i heq
        rw [← heq, Option.some.inj h]
        exact List.mem_cons_self _ _
      · exact List.mem_cons_of_mem _ (ih k e h)

theorem updateEntry_mem (st : AggState) (k : PyStr) (e : CorrectionEntry) :
    ∀ kv ∈ updateEntry st k e, kv ∈ st ∨ kv = (k, e) := by
  intro kv hkv
  unfold updateEntry at hkv
  rcases List.mem_map.mp hkv with ⟨kv0, hkv0, heq⟩
  by_cases h : kv0.1 = k
  · right
    rw [← heq, if_pos h]
  · left
    rw [← heq, if_neg h]
    exact hkv0

theorem processItem_posOk (txt : PyStr) (st : AggState) (item : PyVal)
    (st2 : AggState) (hst : aggStateOk txt st)
    (hwne : ∀ w, pyGetOpt item ("misspelled_word".toList) = some (PyVal.str w) →
      w ≠ [])
    (hrun : processItem txt 0 st item = Except.ok st2) :
    aggStateOk txt st2 := by
  simp only [processItem] at hrun
  cases hm : pyGet item ("misspelled_word".toList) with
  | error e => rw [hm] at hrun; nomatch hrun
  | ok wv =>
    rw [hm] at hrun
    cases hs : pyGet item ("suggestion".toList) with
    | error e => rw [hs] at hrun; nomatch hrun
    | ok sugg =>
      rw [hs] at hrun
      cases wv with
      | str w =>
        have hw_ne : w ≠ [] := hwne w (pyGet_ok item _ _ hm)
        simp only [] at hrun
        cases hlk : lookupEntry st (pyLowerStr w) with
        | none =>
          rw [hlk] at hrun
          rw [← Except.ok.inj hrun]
          intro kv hkv
          rcases List.mem_append.mp hkv with h | h
          · exact hst kv h
          · rw [List.mem_singleton.mp h]
            refine ⟨rfl, ?_⟩
            intro p hp
            obtain ⟨h1, h2, h3⟩ := locate_mem_facts txt w p hp hw_ne
            exact ⟨h1, h2, h3⟩
        | some ent =>
          rw [hlk] at hrun
          simp only [] at hrun
          cases hset : pySet ent.suggestions with
          | error e => rw [hset] at hrun; nomatch hrun
          | ok seen =>
            rw [hset] at hrun
            simp only [] at hrun
            cases hit : pyIter sugg with
            | error e => rw [hit] at hrun; nomatch hrun
            | ok ts =>
              rw [hit] at hrun
              simp only [] at hrun
              cases hml : mergeSuggLoop ent.suggestions seen ts with
              | error e => rw [hml] at hrun; nomatch hrun
              | ok newSugg =>
                rw [hml] at hrun
                rw [← Except.ok.inj hrun]
                have hent := hst (pyLowerStr w, ent) (lookupEntry_mem st _ ent hlk)
                intro kv hkv
                rcases updateEntry_mem st _ _ kv hkv with h | h
                · exact hst kv h
                · rw [h]
                  refine ⟨hent.1, ?_⟩
                  intro p hp
                  rcases List.mem_append.mp hp with hp1 | hp2
                  · exact hent.2 p hp1
                  · obtain ⟨h1, h2, h3⟩ := locate_mem_facts txt w p hp2 hw_ne
                    exact ⟨h1, h2, h3⟩
      | none => nomatch hrun
      | bool b => nomatch hrun
      | int n => nomatch hrun
      | list xs => nomatch hrun
      | dict kvs => nomatch hrun

theorem processItems_posOk (txt : PyStr) :
    ∀ (items : List PyVal) (st st2 : AggState),
    aggStateOk txt st →
    (∀ item ∈ items, ∀ w,
      pyGetOpt item ("misspelled_word".toList) = some (PyVal.str w) → w ≠ []) →
    processItems txt 0 st items = Except.ok st2 →
    aggStateOk txt st2 := by
  intro items
  induction items with
  | nil =>
    intro st st2 hst _ hrun
    simp only [processItems] at hrun
    rw [← Except.ok.inj hrun]
    exact hst
  | cons item rest ih =>
    intro st st2 hst hwne hrun
    simp only [processItems] at hrun
    cases hpi : processItem txt 0 st item with
    | error e => rw [hpi] at hrun; nomatch hrun
    | ok st1 =>
      rw [hpi] at hrun
      have hst1 := processItem_posOk txt st item st1 hst
        (hwne item (List.mem_cons_self _ _)) hpi
      exact ih st1 st2 hst1 (fun it hit => hwne it (List.mem_cons_of_mem _ hit)) hrun

/-! ## C1 — positions are valid offsets (single-chunk case) -/

/-- Claim C1 (amended): when the text fits in a single chunk (so the running
offset is 0) and every reported word is a non-empty string, every
`(start, end)` pair in the positions of every returned Correction is a valid
half-open range into the original text — `0 ≤ start < end ≤ len(text)` — and
`text[start:end]` is a case-insensitive occurrence of the corrected word.
(With more than one chunk the offset advances by the reconstructed chunk
length and the invariant fails, as the counterexample shows.) -/
theorem C1_amended (text : PyStr) (maxChars : Nat) (responses : List PyStr)
    (entries : List CorrectionEntry)
    (hfit : text.length ≤ maxChars)
    (hwords : reportedWordsNonempty (responses.headD []) = true)
    (hrun : spellcheck_pipeline text maxChars responses = Except.ok entries) :
    ∀ e ∈ entries, ∀ p ∈ e.positions,
      p.1 < p.2 ∧ p.2 ≤ text.length ∧
        pyLowerStr (pySlice text p.1 p.2) = pyLowerStr e.word := by
  have hchunks : chunk_text text maxChars = [text] := by
    unfold chunk_text
    rw [if_pos hfit]
  have hwne : ∀ item ∈ _extract_json_list (responses.headD []), ∀ w,
      pyGetOpt item ("misspelled_word".toList) = some (PyVal.str w) → w ≠ [] := by
    unfold reportedWordsNonempty at hwords
    rw [List.all_eq_true] at hwords
    intro item hitem w hw
    have h := hwords item hitem
    rw [hw] at h
    simp only [Bool.not_eq_true'] at h
    intro hnil
    subst hnil
    simp at h
  simp only [spellcheck_pipeline, hchunks] at hrun
  cases hrc : runChunks [] 0 [text] responses with
  | error e => rw [hrc] at hrun; nomatch hrun
  | ok st =>
    rw [hrc] at hrun
    simp only [] at hrun
    have hentries : entries = st.map (fun kv => kv.2) := (Except.ok.inj hrun).symm
    simp only [runChunks] at hrc
    cases hpi : processItems text 0 [] (_extract_json_list (responses.headD [])) with
    | error e => rw [hpi] at hrc; nomatch hrc
    | ok st1 =>
      rw [hpi] at hrc
      simp only [runChunks] at hrc
      have hst1 : st1 = st := Except.ok.inj hrc
      have hok : aggStateOk text st := by
        rw [← hst1]
        exact processItems_posOk text _ [] st1
          (fun kv hkv => absurd hkv (List.not_mem_nil kv)) hwne hpi
      intro e he p hp
      rw [hentries] at he
      rcases List.mem_map.mp he with ⟨kv, hkv, heq⟩
      obtain ⟨hkey, hpos⟩ := hok kv hkv
      rw [← heq] at hp
      obtain ⟨h1, h2, h3⟩ := hpos p hp
      rw [← heq, hkey]
      exact ⟨h1, h2, h3⟩

/-- Witness for C1, from the spec's end-to-end example `"I has a apple"`. -/
theorem C1_witness :
    (2 : Nat) < 5 ∧ 5 ≤ ("I has a apple".toList).length ∧
      pyLowerStr (pySlice ("I has a apple".toList) 2 5)
        = pyLowerStr (("has".toList : PyStr)) :=
  C1_amended ("I has a apple".toList) 1600
    ["[\x7b\"misspelled_word\": \"has\", \"suggestion\": [\"have\"]\x7d]".toList]
    [⟨"has".toList, PyVal.list [PyVal.str ("have".toList)], [(2, 5)]⟩]
    (by decide) (by decide) (by decide)
    ⟨"has".toList, PyVal.list [PyVal.str ("have".toList)], [(2, 5)]⟩
    (by decide) (2, 5) (by decide)

/-! ## Well-formed annotations never raise (C3) -/

theorem wfItemB_spec (item : PyVal) (h : wfItemB item = true) :
    ∃ w ts, pyGetOpt item ("misspelled_word".toList) = some (PyVal.str w) ∧
      pyGetOpt item ("suggestion".toList) = some (PyVal.list ts) ∧
      ∀ t ∈ ts, isStrVal t = true := by
  unfold wfItemB at h
  split at h
  · rename_i w ts heq1 heq2
    refine ⟨w, ts, heq1, heq2, ?_⟩
    rw [← List.all_eq_true]
    exact h
  · nomatch h

theorem isStrVal_hashable (t : PyVal) (h : isStrVal t = true) :
    pyHashable t = true := by
  cases t <;> simp [isStrVal, pyHashable] at h ⊢

theorem mergeFoldPure_mem :
    ∀ (ts xs seen : List PyVal) (t : PyVal),
    t ∈ mergeFoldPure xs seen ts → t ∈ xs ∨ t ∈ ts := by
  intro ts
  induction ts with
  | nil =>
    intro xs seen t ht
    exact Or.inl ht
  | cons u r ih =>
    intro xs seen t ht
    simp only [mergeFoldPure] at ht
    split at ht
    · rcases ih xs seen t ht with h | h
      · exact Or.inl h
      · exact Or.inr (List.mem_cons_of_mem _ h)
    · rcases ih (xs ++ [u]) (seen ++ [u]) t ht with h | h
      · rcases List.mem_append.mp h with h1 | h1
        · exact Or.inl h1
        · exact Or.inr (List.mem_singleton.mp h1 ▸ List.mem_cons_self u r)
      · exact Or.inr (List.mem_cons_of_mem _ h)

theorem processItem_wf_ok (ch : PyStr) (off : Nat) (st : AggState) (item : PyVal)
    (hst : suggListWf st) (hitem : wfItemB item = true) :
    ∃ st2, processItem ch off st item = Except.ok st2 ∧ suggListWf st2 := by
  obtain ⟨w, ts, hw, hs, hts⟩ := wfItemB_spec item hitem
  have htsh : ∀ t ∈ ts, pyHashable t = true :=
    fun t ht => isStrVal_hashable t (hts t ht)
  simp only [processItem, pyGet, hw, hs]
  cases hlk : lookupEntry st (pyLowerStr w) with
  | none =>
    refine ⟨_, rfl, ?_⟩
    intro kv hkv
    rcases List.mem_append.mp hkv with h | h
    · exact hst kv h
    · rw [List.mem_singleton.mp h]
      exact ⟨ts, rfl, hts⟩
  | some ent =>
    obtain ⟨ss, hss, hssw⟩ := hst (pyLowerStr w, ent) (lookupEntry_mem st _ ent hlk)
    have hss2 : ent.suggestions = PyVal.list ss := hss
    have hssh : ∀ t ∈ ss, pyHashable t = true :=
      fun t ht => isStrVal_hashable t (hssw t ht)
    simp only []
    rw [hss2, pySet_list_ok ss hssh]
    simp only [pyIter]
    rw [mergeSuggLoop_list_ok ts ss (setDedup ss) htsh]
    refine ⟨_, rfl, ?_⟩
    intro kv hkv
    rcases updateEntry_mem st _ _ kv hkv with h | h
    · exact hst kv h
    · rw [h]
      refine ⟨mergeFoldPure ss (setDedup ss) ts, rfl, ?_⟩
      intro t ht
      rcases mergeFoldPure_mem ts ss (setDedup ss) t ht with h1 | h1
      · exact hssw t h1
      · exact hts t h1

theorem processItems_wf_ok (ch : PyStr) (off : Nat) :
    ∀ (items : List PyVal) (st : AggState),
    suggListWf st → (∀ item ∈ items, wfItemB item = true) →
    ∃ st2, processItems ch off st items = Except.ok st2 ∧ suggListWf st2 := by
  intro items
  induction items with
  | nil =>
    intro st hst _
    exact ⟨st, rfl, hst⟩
  | cons item rest ih =>
    intro st hst hwf
    obtain ⟨st1, hok, hst1⟩ :=
      processItem_wf_ok ch off st item hst (hwf item (List.mem_cons_self _ _))
    obtain ⟨st2, hok2, hst2⟩ :=
      ih st1 hst1 (fun it hit => hwf it (List.mem_cons_of_mem _ hit))
    refine ⟨st2, ?_, hst2⟩
    simp only [processItems, hok]
    exact hok2

theorem runChunks_wf_ok :
    ∀ (chunks resps : List PyStr) (st : AggState) (off : Nat),
    suggListWf st →
    (∀ r ∈ resps, ∀ item ∈ _extract_json_list r, wfItemB item = true) →
    ∃ st2, runChunks st off chunks resps = Except.ok st2 ∧ suggListWf st2 := by
  intro chunks
  induction chunks with
  | nil =>
    intro resps st off hst _
    exact ⟨st, rfl, hst⟩
  | cons ch rest ih =>
    intro resps st off hst hwf
    have hhead : ∀ item ∈ _extract_json_list (resps.headD []), wfItemB item = true := by
      cases resps with
      | nil =>
        intro item hitem
        simp [_extract_json_list, pyFind, findIdxFrom] at hitem
      | cons r rs =>
        exact hwf r (List.mem_cons_self _ _)
    obtain ⟨st1, hok, hst1⟩ := processItems_wf_ok ch off _ st hst hhead
    have htail : ∀ r ∈ resps.tail, ∀ item ∈ _extract_json_list r, wfItemB item = true :=
      fun r hr => hwf r (List.mem_of_mem_tail hr)
    obtain ⟨st2, hok2, hst2⟩ := ih resps.tail st1 (off + ch.length) hst1 htail
    refine ⟨st2, ?_, hst2⟩
    simp only [runChunks, hok]
    exact hok2

/-! ## C3 — malformed model output -/

/-- Claim C3 (amended): malformed model output at the JSON level is
recovered locally — an unparseable reply extracts to the empty annotation
list (conjunct two) — and every extracted element that is an object with a
string `misspelled_word` and an array-of-strings `suggestion` is processed
without raising (conjunct one); but an element of unexpected shape is not
recovered: a non-object element raises `AttributeError` which propagates to
the caller, as the counterexample shows. -/
theorem C3_amended (text : PyStr) (maxChars : Nat) (responses : List PyStr)
    (hwf : responses.all (fun r => (_extract_json_list r).all wfItemB) = true) :
    (∃ entries, spellcheck_pipeline text maxChars responses = Except.ok entries) ∧
    _extract_json_list ("I could not produce an array, sorry.".toList) = [] := by
  refine ⟨?_, by decide⟩
  have hwf2 : ∀ r ∈ responses, ∀ item ∈ _extract_json_list r, wfItemB item = true := by
    rw [List.all_eq_true] at hwf
    intro r hr
    have h := hwf r hr
    rw [List.all_eq_true] at h
    exact h
  obtain ⟨st2, hok, _⟩ := runChunks_wf_ok (chunk_text text maxChars) responses [] 0
    (fun kv hkv => absurd hkv (List.not_mem_nil kv)) hwf2
  refine ⟨st2.map (fun kv => kv.2), ?_⟩
  simp only [spellcheck_pipeline, hok]

/-- Witness for C3 at the spec's end-to-end example (well-shaped item),
with hypotheses checked by evaluation. -/
theorem C3_witness :
    (∃ entries, spellcheck_pipeline ("I has a apple".toList) 1600
        ["[\x7b\"misspelled_word\": \"has\", \"suggestion\": [\"have\"]\x7d]".toList]
      = Except.ok entries) ∧
    _extract_json_list ("I could not produce an array, sorry.".toList) = [] :=
  C3_amended ("I has a apple".toList) 1600
    ["[\x7b\"misspelled_word\": \"has\", \"suggestion\": [\"have\"]\x7d]".toList]
    (by decide)
